import Mathlib

/-!
Verification development for the decision core of the agent.rs repository.

The Rust sources are shallowly embedded: strings are modelled as Lean
strings viewed through their character lists (Rust `str::len` counts UTF-8
bytes, which coincides with the character count on ASCII text; the
case-folding and character-class primitives used here are ASCII-accurate,
matching the Rust code on ASCII data).  `serde_json` is modelled by an
executable fuel-based JSON parser over an algebraic `Json` type.
-/

set_option maxRecDepth 20000

namespace AgentRs

/-- Boolean substring test on character lists: does `hay` contain `needle`
as a contiguous sublist?  Models Rust `str::contains`. -/
def charsContain (needle : List Char) : List Char → Bool
  | [] => needle.isEmpty
  | c :: t => needle.isPrefixOf (c :: t) || charsContain needle t

/-- Substring test on strings, models Rust `hay.contains(needle)`. -/
def strContains (hay needle : String) : Bool :=
  charsContain needle.data hay.data

/-- Trim ASCII/Unicode whitespace from both ends of a character list
(right end first, then left end); models Rust `str::trim`. -/
def trimChars (cs : List Char) : List Char :=
  ((cs.reverse.dropWhile Char.isWhitespace).reverse).dropWhile Char.isWhitespace

/-- Models Rust `str::trim`. -/
def rustTrim (s : String) : String :=
  ⟨trimChars s.data⟩

/-- Models Rust `str::to_lowercase` (ASCII-accurate). -/
def rustToLower (s : String) : String :=
  ⟨s.data.map Char.toLower⟩

/-- Models Rust `str::eq_ignore_ascii_case`. -/
def eqIgnoreAsciiCase (a b : String) : Bool :=
  a.data.map Char.toLower == b.data.map Char.toLower

/-- Models Rust `str::starts_with`. -/
def rustStartsWith (s p : String) : Bool :=
  p.data.isPrefixOf s.data

/-- Accumulator-based whitespace splitter over character lists.  The
accumulator holds the current token reversed. -/
def wsSplitAux : List Char → List Char → List (List Char)
  | [], cur => if cur.isEmpty then [] else [cur.reverse]
  | c :: t, cur =>
    if c.isWhitespace then
      if cur.isEmpty then wsSplitAux t [] else cur.reverse :: wsSplitAux t []
    else wsSplitAux t (c :: cur)

/-- Models Rust `str::split_whitespace` (collected to a vector). -/
def split_whitespace (s : String) : List String :=
  (wsSplitAux s.data []).map (fun cs => ⟨cs⟩)

/-- Split a character list at newline characters, keeping empty segments;
auxiliary for modelling Rust `str::lines`. -/
def splitNl : List Char → List (List Char)
  | [] => [[]]
  | c :: t =>
    if c = '\n' then [] :: splitNl t
    else
      match splitNl t with
      | [] => [[c]]
      | h :: r => (c :: h) :: r

/-- Strip one trailing carriage return, as Rust `str::lines` does per line. -/
def stripCr (l : List Char) : List Char :=
  if l.getLast? = some '\r' then l.dropLast else l

/-- Models Rust `str::lines` (collected): split at newlines, drop the final
empty segment produced by a trailing newline, strip a trailing `\r`. -/
def rustLines (s : String) : List String :=
  let parts := splitNl s.data
  let parts := if parts.getLast? = some [] then parts.dropLast else parts
  parts.map (fun l => ⟨stripCr l⟩)

/-! ### JSON model

`serde_json::Value` is modelled by `Json`; `serde_json::from_str` by the
fuel-based parser `jparse`.  Number tokens are kept as raw text (their
numeric value is never inspected by the embedded code).  The parser covers
the standard grammar (objects, arrays, strings with the usual escapes,
`true`/`false`/`null`, and number tokens recognised slightly leniently);
general theorems only constrain `jparse` through hypotheses, and concrete
witnesses use inputs well inside the covered grammar. -/

inductive Json where
  | null : Json
  | bool (b : Bool) : Json
  | num (raw : String) : Json
  | str (s : String) : Json
  | arr (elems : List Json) : Json
  | obj (fields : List (String × Json)) : Json

/-- First-match association lookup over parsed object fields; models
`serde_json::Value::get` on objects. -/
def lookupField : List (String × Json) → String → Option Json
  | [], _ => none
  | (k, v) :: rest, key => if k == key then some v else lookupField rest key

/-- Models `Value::get(key)`: object lookup, `none` on non-objects. -/
def jget (v : Json) (key : String) : Option Json :=
  match v with
  | .obj fields => lookupField fields key
  | _ => none

/-- Remove every field with the given key; models what `#[serde(flatten)]`
leaves in the parameter bag after the named discriminator field is consumed. -/
def removeField (fields : List (String × Json)) (key : String) : List (String × Json) :=
  fields.filter (fun kv => kv.1 != key)

/-- Models `Value::as_str`. -/
def jsonAsStr : Json → Option String
  | .str s => some s
  | _ => none

/-- Skip JSON whitespace (space, tab, newline, carriage return). -/
def skipWs (cs : List Char) : List Char :=
  cs.dropWhile Char.isWhitespace

/-- Decode one string-escape character following a backslash. -/
def unescapeChar (c : Char) : Option Char :=
  if c = '"' then some '"'
  else if c = '\\' then some '\\'
  else if c = '/' then some '/'
  else if c = 'n' then some '\n'
  else if c = 't' then some '\t'
  else if c = 'r' then some '\r'
  else if c = 'b' then some (Char.ofNat 8)
  else if c = 'f' then some (Char.ofNat 12)
  else none

/-- Hex digit value. -/
def hexVal (c : Char) : Option Nat :=
  if c.isDigit then some (c.toNat - '0'.toNat)
  else if 'a' ≤ c ∧ c ≤ 'f' then some (c.toNat - 'a'.toNat + 10)
  else if 'A' ≤ c ∧ c ≤ 'F' then some (c.toNat - 'A'.toNat + 10)
  else none

/-- Parse the body of a JSON string after the opening quote, returning the
decoded content and the remainder after the closing quote.  `\uXXXX` escapes
are decoded without surrogate pairing (the embedded code never relies on
them). -/
def parseStrAux : List Char → Option (List Char × List Char)
  | [] => none
  | '"' :: rest => some ([], rest)
  | '\\' :: 'u' :: a :: b :: c :: d :: rest => do
    let va ← hexVal a
    let vb ← hexVal b
    let vc ← hexVal c
    let vd ← hexVal d
    let (content, r) ← parseStrAux rest
    pure (Char.ofNat (((va * 16 + vb) * 16 + vc) * 16 + vd) :: content, r)
  | '\\' :: e :: rest => do
    let decoded ← unescapeChar e
    let (content, r) ← parseStrAux rest
    pure (decoded :: content, r)
  | c :: rest => do
    let (content, r) ← parseStrAux rest
    pure (c :: content, r)

/-- Character allowed inside a number token. -/
def numChar (c : Char) : Bool :=
  c.isDigit || c = '-' || c = '+' || c = '.' || c = 'e' || c = 'E'

mutual

/-- Fuel-based JSON value parser; models `serde_json::from_str` together
with `jparse` below. -/
def parseValue : Nat → List Char → Option (Json × List Char)
  | 0, _ => none
  | fuel + 1, cs =>
    match skipWs cs with
    | [] => none
    | '"' :: rest =>
      match parseStrAux rest with
      | some (content, r) => some (.str ⟨content⟩, r)
      | none => none
    | '{' :: rest => parseObjRest fuel rest []
    | '[' :: rest => parseArrRest fuel rest []
    | 't' :: 'r' :: 'u' :: 'e' :: rest => some (.bool true, rest)
    | 'f' :: 'a' :: 'l' :: 's' :: 'e' :: rest => some (.bool false, rest)
    | 'n' :: 'u' :: 'l' :: 'l' :: rest => some (.null, rest)
    | c :: rest =>
      if c.isDigit || c = '-' then
        some (.num ⟨c :: rest.takeWhile numChar⟩, rest.dropWhile numChar)
      else none

/-- Parse the members of an object after the opening brace (or after a
comma), accumulating fields in source order. -/
def parseObjRest : Nat → List Char → List (String × Json) → Option (Json × List Char)
  | 0, _, _ => none
  | fuel + 1, cs, acc =>
    match skipWs cs with
    | '}' :: rest => if acc.isEmpty then some (.obj acc, rest) else none
    | '"' :: rest =>
      match parseStrAux rest with
      | some (key, r1) =>
        match skipWs r1 with
        | ':' :: r2 =>
          match parseValue fuel r2 with
          | some (v, r3) =>
            match skipWs r3 with
            | ',' :: r4 => parseObjRest fuel r4 (acc ++ [(⟨key⟩, v)])
            | '}' :: r4 => some (.obj (acc ++ [(⟨key⟩, v)]), r4)
            | _ => none
          | none => none
        | _ => none
      | none => none
    | _ => none

/-- Parse the items of an array after the opening bracket (or after a
comma), accumulating elements in source order. -/
def parseArrRest : Nat → List Char → List Json → Option (Json × List Char)
  | 0, _, _ => none
  | fuel + 1, cs, acc =>
    match skipWs cs with
    | ']' :: rest => if acc.isEmpty then some (.arr acc, rest) else none
    | cs' =>
      match parseValue fuel cs' with
      | some (v, r1) =>
        match skipWs r1 with
        | ',' :: r2 => parseArrRest fuel r2 (acc ++ [v])
        | ']' :: r2 => some (.arr (acc ++ [v]), r2)
        | _ => none
      | none => none

end

/-- Models `serde_json::from_str::<serde_json::Value>`: parse one value and
require only whitespace to remain. -/
def jparse (s : String) : Option Json :=
  match parseValue (s.data.length + 1) s.data with
  | some (v, rest) => if (skipWs rest).isEmpty then some v else none
  | none => none

/-! ### crates/agent-core/src/tool.rs -/

/-- A tool request parsed from model output (`tool.rs`).  `params` holds the
flattened remaining fields. -/
structure ToolRequest where
  tool : String
  params : Json

/-- The result of executing a tool (`tool.rs`). -/
structure ToolResult where
  success : Bool
  output : String
  error : Option String
deriving DecidableEq

/-- Constructor `ToolResult::success`. -/
def ToolResult.mkSuccess (output : String) : ToolResult :=
  ⟨true, output, none⟩

/-- Constructor `ToolResult::failure`. -/
def ToolResult.mkFailure (error : String) : ToolResult :=
  ⟨false, "", some error⟩

/-! ### crates/agent-core/src/skill.rs (request shape)

The `skill` module of `agent-core` is declared in `lib.rs` (`pub mod skill`,
re-exporting `SkillRequest`, `is_valid_skill`, `AVAILABLE_SKILLS`, ...) and
matched on by `agent.rs` and `main.rs`, but its source file is not in the
snapshot; the request shape mirrors `SkillRequest` in
`src/skills/extraction/mod.rs`, and the validity check is modelled from the
spec. -/

/-- Skill request parsed from model output: the skill name plus the
flattened remaining fields as the parameter bag. -/
structure SkillRequest where
  skill : String
  params : Json

/-- Modelled from the spec: the catalogue of supported skills named by the
missing `agent-core/src/skill.rs` (`AVAILABLE_SKILLS`); the only built-in
skill is `extract` (spec section 4.4, `main.rs` system prompt and
`execute_skill`). -/
def AVAILABLE_SKILLS : List String := ["extract"]

/-- Modelled from the spec: the supported-skill test exported (as
`is_valid_skill`) by the missing `agent-core/src/skill.rs`. -/
def is_valid_skill (name : String) : Bool :=
  AVAILABLE_SKILLS.contains name

/-! ### crates/agent-core/src/protocol.rs -/

/-- The result of parsing model output (`protocol.rs`; the `SkillCall`
variant is required by its caller `agent.rs`, whose `process_model_output`
matches on it). -/
inductive ParseResult where
  | ToolCall (req : ToolRequest) : ParseResult
  | SkillCall (req : SkillRequest) : ParseResult
  | FinalAnswer (answer : String) : ParseResult
  | Inconclusive (output : String) : ParseResult

/-- Whether a parse result is a tool or skill invocation. -/
def ParseResult.is_action : ParseResult → Bool
  | .ToolCall _ => true
  | .SkillCall _ => true
  | _ => false

/-- The fixed planning-marker phrases of `is_inconclusive` (`protocol.rs`). -/
def planning_phrases : List String :=
  ["i will", "i'll", "let me", "let's", "we can", "we will",
   "to do this", "first,", "step 1", "the command", "using the", "by using"]

/-- Detect if output is inconclusive (`protocol.rs::is_inconclusive`):
shorter than 300 (Rust counts UTF-8 bytes; characters on ASCII text) and
case-insensitively containing a planning phrase. -/
def is_inconclusive (output : String) : Bool :=
  let lower := rustToLower output
  if output.data.length < 300 then
    planning_phrases.any (fun phrase => strContains lower phrase)
  else
    false

/-- Deserialisation of `ToolRequest` from a JSON value (serde: object with a
string `tool` field; the flattened `params` collects the remaining fields). -/
def toToolRequest (v : Json) : Option ToolRequest :=
  match v with
  | .obj fields =>
    match lookupField fields "tool" with
    | some (.str name) => some ⟨name, .obj (removeField fields "tool")⟩
    | _ => none
  | _ => none

/-- Deserialisation of `SkillRequest` from a JSON value (object with a
string `skill` field; the flattened `params` collects the remaining
fields), mirroring `SkillRequest` of `src/skills/extraction/mod.rs`. -/
def toSkillRequest (v : Json) : Option SkillRequest :=
  match v with
  | .obj fields =>
    match lookupField fields "skill" with
    | some (.str name) => some ⟨name, .obj (removeField fields "skill")⟩
    | _ => none
  | _ => none

/-- Parse model output (`protocol.rs::parse_model_output`).  The `tool`
branch and the inconclusive/final-answer fallthrough are from the source.
The `skill` branch is modelled from the spec (section 4.1: a parsed value
carrying the `skill` discriminator naming a supported action yields a skill
call with the remaining fields as the parameter bag); its source lives in
the missing `agent-core` files whose callers (`agent.rs`,
`main.rs::execute_skill`) are in the snapshot. -/
def parse_model_output (output : String) : ParseResult :=
  let trimmed := rustTrim output
  match jparse trimmed with
  | some v =>
    match jget v "tool" with
    | some _ =>
      match toToolRequest v with
      | some tr => .ToolCall tr
      | none =>
        if is_inconclusive trimmed then .Inconclusive trimmed else .FinalAnswer trimmed
    | none =>
      match jget v "skill" with
      | some _ =>
        match toSkillRequest v with
        | some sr =>
          if is_valid_skill sr.skill then .SkillCall sr
          else if is_inconclusive trimmed then .Inconclusive trimmed else .FinalAnswer trimmed
        | none =>
          if is_inconclusive trimmed then .Inconclusive trimmed else .FinalAnswer trimmed
      | none =>
        if is_inconclusive trimmed then .Inconclusive trimmed else .FinalAnswer trimmed
  | none =>
    if is_inconclusive trimmed then .Inconclusive trimmed else .FinalAnswer trimmed

/-! ### crates/agent-core/src/agent.rs -/

/-- The role of a message (`agent.rs`). -/
inductive Role where
  | User : Role
  | Assistant : Role
  | Tool : Role
deriving DecidableEq

/-- A message in the conversation history (`agent.rs`). -/
structure Message where
  role : Role
  content : String
deriving DecidableEq

/-- The state of the agent during execution (`agent.rs::AgentState`). -/
structure AgentState where
  history : List Message
  is_complete : Bool
  final_answer : Option String
deriving DecidableEq

/-- `AgentState::new`: one initial user message, not complete, no answer. -/
def AgentState.new (query : String) : AgentState :=
  ⟨[⟨.User, query⟩], false, none⟩

/-- `AgentState::add_message`: push a message onto the history
(unconditionally; the source performs no completion check). -/
def AgentState.add_message (s : AgentState) (role : Role) (content : String) : AgentState :=
  { s with history := s.history ++ [⟨role, content⟩] }

/-- The decision made by the agent after processing model output
(`agent.rs::AgentDecision`). -/
inductive AgentDecision where
  | InvokeTool (req : ToolRequest) : AgentDecision
  | InvokeSkill (req : SkillRequest) : AgentDecision
  | Done (answer : String) : AgentDecision
  | Inconclusive (output : String) : AgentDecision

/-- Process model output and decide the next action
(`agent.rs::process_model_output`); the state mutation is made explicit by
returning the updated state alongside the decision. -/
def process_model_output (state : AgentState) (model_output : String) :
    AgentState × AgentDecision :=
  match parse_model_output model_output with
  | .ToolCall tr => (state.add_message .Assistant model_output, .InvokeTool tr)
  | .SkillCall sr => (state.add_message .Assistant model_output, .InvokeSkill sr)
  | .FinalAnswer answer =>
    ({ history := (state.add_message .Assistant answer).history,
       is_complete := true,
       final_answer := some answer }, .Done answer)
  | .Inconclusive output => (state, .Inconclusive output)

/-- Apply a tool result to the agent state (`agent.rs::apply_tool_result`). -/
def apply_tool_result (state : AgentState) (result : ToolResult) : AgentState :=
  let content :=
    if result.success then "Tool output:\n" ++ result.output
    else "Tool failed: " ++ (result.error.getD "unknown error")
  state.add_message .Tool content

/-! ### crates/agent-core/src/guardrail.rs -/

/-- Result of guardrail validation (`guardrail.rs::GuardrailResult`). -/
inductive GuardrailResult where
  | Accept : GuardrailResult
  | Reject (reason : String) : GuardrailResult
deriving DecidableEq

/-- `GuardrailResult::is_reject`. -/
def GuardrailResult.is_reject : GuardrailResult → Bool
  | .Accept => false
  | .Reject _ => true

/-- Context provided to guardrails for validation
(`guardrail.rs::GuardrailContext`). -/
structure GuardrailContext where
  state : AgentState
  tool_request : ToolRequest
  tool_result : ToolResult

/-- A semantic guardrail, modelled as its pure `validate` function
(the `SemanticGuardrail` trait object). -/
def Guard : Type := GuardrailContext → GuardrailResult

/-- Run all guardrails in order, returning the first rejection, or `Accept`
if all pass (`guardrail.rs::GuardrailChain::validate`). -/
def chainValidate (guards : List Guard) (ctx : GuardrailContext) : GuardrailResult :=
  match guards with
  | [] => .Accept
  | gd :: rest =>
    match gd ctx with
    | .Reject r => .Reject r
    | .Accept => chainValidate rest ctx

/-- Instrumented variant of `chainValidate` that additionally counts how
many validators were invoked, to express the short-circuit guarantee. -/
def chainValidateCount (guards : List Guard) (ctx : GuardrailContext) :
    GuardrailResult × Nat :=
  match guards with
  | [] => (.Accept, 0)
  | gd :: rest =>
    match gd ctx with
    | .Reject r => (.Reject r, 1)
    | .Accept =>
      let (res, n) := chainValidateCount rest ctx
      (res, n + 1)

/-- `PlausibilityGuard::is_metadata_only`: a trimmed single line that is
only the word `total` (ASCII case-insensitive) followed by one all-digit
token. -/
def is_metadata_only (output : String) : Bool :=
  let trimmed := rustTrim output
  if trimmed.data.isEmpty then true
  else if (rustLines trimmed).length == 1 then
    let lower := rustToLower trimmed
    if rustStartsWith lower "total" && trimmed.data.any Char.isDigit then
      match split_whitespace trimmed with
      | [a, b] => eqIgnoreAsciiCase a "total" && b.data.all Char.isDigit
      | _ => false
    else false
  else false

/-- `PlausibilityGuard::has_minimal_substance`: at least 3 characters after
trimming (Rust counts bytes; characters on ASCII text) and at least one
alphanumeric character. -/
def has_minimal_substance (output : String) : Bool :=
  let trimmed := rustTrim output
  if trimmed.data.length < 3 then false
  else if !(trimmed.data.any Char.isAlphanum) then false
  else true

/-- `PlausibilityGuard::validate` (the `SemanticGuardrail` implementation):
failed tool results pass through; successful ones are rejected when empty,
metadata-only, or lacking substance. -/
def plausibility_validate (ctx : GuardrailContext) : GuardrailResult :=
  if !ctx.tool_result.success then .Accept
  else
    let output := ctx.tool_result.output
    if (rustTrim output).data.isEmpty then
      .Reject "Tool output is empty - no data returned"
    else if is_metadata_only output then
      .Reject "Tool output contains only metadata (e.g. 'total' line), not actual data"
    else if !(has_minimal_substance output) then
      .Reject "Tool output lacks substantive content"
    else .Accept

/-! ### src/skills/extraction/mod.rs -/

/-- Supported extraction targets (`extraction/mod.rs::ExtractionTarget`). -/
inductive ExtractionTarget where
  | Email : ExtractionTarget
  | Url : ExtractionTarget
  | Date : ExtractionTarget
  | Entity : ExtractionTarget
deriving DecidableEq

/-- `ExtractionTarget::as_str`. -/
def ExtractionTarget.as_str : ExtractionTarget → String
  | .Email => "email"
  | .Url => "url"
  | .Date => "date"
  | .Entity => "entity"

/-- Input for the extraction skill (`extraction/mod.rs::ExtractionInput`). -/
structure ExtractionInput where
  text : String
  target : String

/-- Output from the extraction skill
(`extraction/mod.rs::ExtractionOutput`): the result as a JSON value. -/
structure ExtractionOutput where
  result : Json

/-- `ExtractionOutput::has_target_field`. -/
def ExtractionOutput.has_target_field (o : ExtractionOutput) (target : ExtractionTarget) : Bool :=
  (jget o.result target.as_str).isSome

/-- Errors that can occur during skill execution
(`extraction/mod.rs::SkillError`). -/
inductive SkillError where
  | EmptyInput : SkillError
  | InvalidTarget (t : String) : SkillError
  | MalformedOutput (msg : String) : SkillError
  | SchemaViolation (msg : String) : SkillError
  | HallucinationDetected (val : String) : SkillError
deriving DecidableEq

/-- The strings that the anti-hallucination check iterates over for the
scalar/array targets: a string value contributes itself, an array
contributes its string elements (`filter_map(as_str)`), anything else
contributes nothing. -/
def itemsOf : Json → List String
  | .str s => [s]
  | .arr elems => elems.filterMap jsonAsStr
  | _ => []

/-- The item loop of `validate_extraction_output` for the scalar/array
targets: fail with `HallucinationDetected` on the first item that is not a
case-insensitive substring of the (pre-lowercased) source text. -/
def checkItems (source_lower : String) : List String → Except SkillError Unit
  | [] => .ok ()
  | item :: rest =>
    if strContains source_lower (rustToLower item) then checkItems source_lower rest
    else .error (.HallucinationDetected item)

/-- The per-value token test of the entity branch: some whitespace-separated
token of the value is a case-insensitive substring of the source text. -/
def anyTokenFound (source_lower : String) (s : String) : Bool :=
  (split_whitespace s).any (fun w => strContains source_lower (rustToLower w))

/-- The inner loop of the entity branch of `validate_extraction_output`:
string elements must have some token present in the source; non-string
elements are skipped. -/
def checkEntityVals (source_lower : String) : List Json → Except SkillError Unit
  | [] => .ok ()
  | v :: rest =>
    match jsonAsStr v with
    | some s =>
      if anyTokenFound source_lower s then checkEntityVals source_lower rest
      else .error (.HallucinationDetected s)
    | none => checkEntityVals source_lower rest

/-- The field loop of the entity branch of `validate_extraction_output`:
for each of the given field names, check the values when the field is an
array (non-array or missing fields are skipped). -/
def checkEntityFields (source_lower : String) (entity : Json) :
    List String → Except SkillError Unit
  | [] => .ok ()
  | f :: rest =>
    match jget entity f with
    | some (.arr elems) =>
      match checkEntityVals source_lower elems with
      | .ok () => checkEntityFields source_lower entity rest
      | .error e => .error e
    | _ => checkEntityFields source_lower entity rest

/-- Validate extraction output against input
(`extraction/mod.rs::validate_extraction_output`): schema check for the
target field, then the anti-hallucination check per target kind. -/
def validate_extraction_output (input : ExtractionInput) (output : ExtractionOutput)
    (target : ExtractionTarget) : Except SkillError Unit :=
  if !(output.has_target_field target) then
    .error (.SchemaViolation ("output missing '" ++ target.as_str ++ "' field"))
  else
    let source_lower := rustToLower input.text
    match target with
    | .Email | .Url | .Date =>
      match jget output.result target.as_str with
      | some values => checkItems source_lower (itemsOf values)
      | none => .ok ()
    | .Entity =>
      match jget output.result "entity" with
      | some entity => checkEntityFields source_lower entity ["people", "organizations", "locations"]
      | none => .ok ()

/-! ### crates/agent-native/src/main.rs (run_agent loop)

The orchestration loop is embedded as a fuel-indexed pure function.  The
external collaborators are oracles: the inference backend is a function
from the call index (the loop performs strictly sequential calls) to the
generated text, the tool executor a function from requests to results, and
the skill executor a function that may consume further inference calls and
therefore also transforms the call index.  Prompt construction
(`before_llm_call`) only feeds the backend, so it does not appear in the
pure model.  Guardrail-chain invocations are counted to make the
validate-before-append discipline checkable. -/

/-- Host-level outcome of executing a skill (`SkillResult_` as used by
`main.rs`): a success flag, the rendered JSON output, and an optional
error message. -/
structure SkillOutcome where
  success : Bool
  json : String
  error : Option String

/-- The message appended to the history for a skill outcome
(`main.rs`: `Skill output:\n{json}` or `Skill failed: {error}`). -/
def skillMsg (r : SkillOutcome) : String :=
  if r.success then "Skill output:\n" ++ r.json
  else "Skill failed: " ++ (r.error.getD "unknown error")

/-- Oracles for the external collaborators of the loop. -/
structure LoopEnv where
  llm : Nat → String
  toolExec : ToolRequest → ToolResult
  skillExec : SkillRequest → Nat → SkillOutcome × Nat

/-- Terminal outcome of `run_agent`: the distinct success and failure
modes of the source (normal answer; guardrail double rejection;
inconclusive after a guardrail rejection; inconclusive after the
inconclusive corrective retry; iteration budget exhausted). -/
inductive RunResult where
  | success (answer : String) : RunResult
  | guardrailDoubleReject (reason retryReason : String) : RunResult
  | inconclusiveAfterGuardrail (reason output : String) : RunResult
  | inconclusiveAfterRetry (original retry : String) : RunResult
  | maxIterationsExceeded : RunResult
deriving DecidableEq

/-- Observable outcome of a loop run: the terminal result, the agent state
at termination, and how many times the guardrail chain was invoked. -/
structure RunOut where
  result : RunResult
  final : AgentState
  gcalls : Nat
deriving DecidableEq

/-- The guardrail chain installed by `run_agent`
(`GuardrailChain::new().add(Box::new(PlausibilityGuard::new()))`). -/
def run_chain : List Guard := [plausibility_validate]

/-- The `while iteration < max_iterations` body of `main.rs::run_agent`,
with fuel counting the remaining primary iterations, `k` the inference
call index and `g` the number of guardrail-chain invocations so far.
Each branch mirrors the corresponding arm of the source, including the
corrective-retry arms (which run inside the same primary iteration). -/
def runLoop (env : LoopEnv) : Nat → AgentState → Bool → Nat → Nat → RunOut
  | 0, state, _, _, g => ⟨.maxIterationsExceeded, state, g⟩
  | fuel + 1, state, toolUsed, k, g =>
    match process_model_output state (env.llm k) with
    | (s1, .InvokeSkill sr) =>
      let (res, k2) := env.skillExec sr (k + 1)
      runLoop env fuel (s1.add_message .Tool (skillMsg res)) toolUsed k2 g
    | (s1, .InvokeTool tr) =>
      let result := env.toolExec tr
      match chainValidate run_chain ⟨s1, tr, result⟩ with
      | .Accept => runLoop env fuel (apply_tool_result s1 result) true (k + 1) (g + 1)
      | .Reject reason =>
        match process_model_output s1 (env.llm (k + 1)) with
        | (s2, .InvokeSkill sr) =>
          let (res, k3) := env.skillExec sr (k + 2)
          runLoop env fuel (s2.add_message .Tool (skillMsg res)) toolUsed k3 (g + 1)
        | (s2, .InvokeTool tr2) =>
          let retryResult := env.toolExec tr2
          match chainValidate run_chain ⟨s2, tr2, retryResult⟩ with
          | .Accept => runLoop env fuel (apply_tool_result s2 retryResult) true (k + 2) (g + 2)
          | .Reject retryReason => ⟨.guardrailDoubleReject reason retryReason, s2, g + 2⟩
        | (s2, .Done answer) => ⟨.success answer, s2, g + 1⟩
        | (s2, .Inconclusive t) => ⟨.inconclusiveAfterGuardrail reason t, s2, g + 1⟩
    | (s1, .Done answer) => ⟨.success answer, s1, g⟩
    | (s1, .Inconclusive t1) =>
      match process_model_output s1 (env.llm (k + 1)) with
      | (s2, .InvokeSkill sr) =>
        let (res, k3) := env.skillExec sr (k + 2)
        runLoop env fuel (s2.add_message .Tool (skillMsg res)) toolUsed k3 g
      | (s2, .InvokeTool tr) =>
        let result := env.toolExec tr
        runLoop env fuel (apply_tool_result s2 result) true (k + 2) g
      | (s2, .Done answer) => ⟨.success answer, s2, g⟩
      | (s2, .Inconclusive t2) => ⟨.inconclusiveAfterRetry t1 t2, s2, g⟩

/-- `main.rs::run_agent`: start from a fresh session on the query with no
tool used yet and run up to `max_iterations` primary iterations. -/
def run_agent (env : LoopEnv) (max_iterations : Nat) (query : String) : RunOut :=
  runLoop env max_iterations (AgentState.new query) false 0 0

/-! ### Auxiliary definitions used by the theorems -/

instance : DecidableEq (Except SkillError Unit) := fun
  | .ok (), .ok () => .isTrue rfl
  | .ok (), .error _ => .isFalse fun h => Except.noConfusion h
  | .error _, .ok () => .isFalse fun h => Except.noConfusion h
  | .error e, .error f =>
    match decEq e f with
    | .isTrue h => .isTrue (h ▸ rfl)
    | .isFalse h => .isFalse fun c => h (Except.error.inj c)

/-- The states reachable through the `AgentState` API of `agent.rs`: a fresh
session, message appends, model-output processing, and tool-result
application. -/
inductive ReachableState : AgentState → Prop where
  | init (q : String) : ReachableState (AgentState.new q)
  | added (s : AgentState) (role : Role) (content : String) :
      ReachableState s → ReachableState (s.add_message role content)
  | processed (s : AgentState) (output : String) :
      ReachableState s → ReachableState (process_model_output s output).1
  | toolApplied (s : AgentState) (result : ToolResult) :
      ReachableState s → ReachableState (apply_tool_result s result)

/-- Claim-side predicate, following the spec's words for the
metadata-rejection bullet: the (trimmed) output is exactly one line
consisting of the literal word `total` (case-insensitively) followed by a
single numeric token and nothing else. -/
def totalMetadataLine (t : String) : Bool :=
  ((rustLines t).length == 1) &&
    match split_whitespace t with
    | [w, n] => eqIgnoreAsciiCase w "total" && !n.data.isEmpty && n.data.all Char.isDigit
    | _ => false

/-- Concrete oracle script: first generation inconclusive, corrective retry
a shell tool call, tool outcome a bare `total 123` metadata line. -/
def envC1 : LoopEnv :=
  ⟨fun n => if n == 0 then "I will run ls now"
            else "\x7b\"tool\": \"shell\", \"command\": \"ls\"\x7d",
   fun _ => ToolResult.mkSuccess "total 123",
   fun _ k => (⟨false, "", none⟩, k)⟩

/-- Concrete oracle script: both the first generation and the corrective
retry are inconclusive planning text. -/
def envC4 : LoopEnv :=
  ⟨fun n => if n == 0 then "I will run ls now" else "Let me check the files",
   fun _ => ToolResult.mkFailure "unused",
   fun _ k => (⟨false, "", none⟩, k)⟩

/-- Concrete model output carrying the `skill` discriminator. -/
def skillCallText : String :=
  "\x7b\"skill\": \"extract\", \"text\": \"hi\", \"target\": \"email\"\x7d"

/-! ## Theorems -/

/-- C5: `GuardrailChain::validate` evaluates validators strictly in
registration order and returns the first `Reject`; validators after the
first rejecting one are never invoked (the invocation count stops at the
rejecting validator), so the verdict is independent of any validators that
follow a rejecting one; with no rejection (including the empty chain) the
result is `Accept`. -/
theorem spec_c5 :
    (∀ ctx, chainValidate [] ctx = .Accept) ∧
    (∀ (gs : List Guard) ctx, (∀ gd ∈ gs, gd ctx = .Accept) →
      chainValidate gs ctx = .Accept) ∧
    (∀ (gs : List Guard) ctx, chainValidate gs ctx = (chainValidateCount gs ctx).1) ∧
    (∀ (pre : List Guard) (gd : Guard) (post post' : List Guard) ctx r,
      (∀ g ∈ pre, g ctx = .Accept) → gd ctx = .Reject r →
      chainValidate (pre ++ gd :: post) ctx = .Reject r ∧
      (chainValidateCount (pre ++ gd :: post) ctx).2 = pre.length + 1 ∧
      chainValidate (pre ++ gd :: post) ctx = chainValidate (pre ++ gd :: post') ctx) := by
  refine ⟨fun ctx => rfl, ?_, ?_, ?_⟩
  · intro gs ctx h
    induction gs with
    | nil => rfl
    | cons g rest ih =>
      simp only [chainValidate]
      rw [h g (List.mem_cons_self g rest)]
      exact ih fun g' hg' => h g' (List.mem_cons_of_mem g hg')
  · intro gs ctx
    induction gs with
    | nil => rfl
    | cons g rest ih =>
      simp only [chainValidate, chainValidateCount]
      cases g ctx with
      | Reject r => rfl
      | Accept => simpa using ih
  · intro pre gd post post' ctx r hpre hgd
    induction pre with
    | nil =>
      refine ⟨?_, ?_, ?_⟩ <;>
        simp [List.nil_append, chainValidate, chainValidateCount, hgd]
    | cons g' pre' ih =>
      have hg' : g' ctx = .Accept := hpre g' (List.mem_cons_self g' pre')
      have ih' := ih fun g hg => hpre g (List.mem_cons_of_mem g' hg)
      refine ⟨?_, ?_, ?_⟩
      · simp only [List.cons_append, chainValidate, hg']
        exact ih'.1
      · simp only [List.cons_append, chainValidateCount, hg']
        cases hcc : chainValidateCount (pre' ++ gd :: post) ctx with
        | mk res n =>
          have : n = pre'.length + 1 := by
            have := ih'.2.1
            rw [hcc] at this
            exact this
          simp [this, List.length_cons]
      · simp only [List.cons_append, chainValidate, hg']
        exact ih'.2.2

/-- C5 witness: a 3-validator chain whose first validator rejects returns
that rejection, invokes exactly one validator (so validators 2 and 3 are
never invoked), and the verdict does not depend on the trailing validators. -/
theorem spec_c5_witness :
    chainValidate
        [fun _ => .Reject "r1", fun _ => .Accept, fun _ => .Accept]
        ⟨AgentState.new "t", ⟨"shell", .obj []⟩, ToolResult.mkSuccess "data"⟩ =
      .Reject "r1" ∧
    (chainValidateCount
        [fun _ => .Reject "r1", fun _ => .Accept, fun _ => .Accept]
        ⟨AgentState.new "t", ⟨"shell", .obj []⟩, ToolResult.mkSuccess "data"⟩).2 = 1 ∧
    chainValidate
        [fun _ => .Reject "r1", fun _ => .Accept, fun _ => .Accept]
        ⟨AgentState.new "t", ⟨"shell", .obj []⟩, ToolResult.mkSuccess "data"⟩ =
      chainValidate [fun _ => .Reject "r1"]
        ⟨AgentState.new "t", ⟨"shell", .obj []⟩, ToolResult.mkSuccess "data"⟩ := by
  have h := spec_c5.2.2.2 [] (fun _ => .Reject "r1")
    [fun _ => .Accept, fun _ => .Accept] []
    ⟨AgentState.new "t", ⟨"shell", .obj []⟩, ToolResult.mkSuccess "data"⟩ "r1"
    (by intro g hg; cases hg) rfl
  simpa using h

/-- C4: a corrective retry does not consume an iteration: with
`max_iterations = 1`, a first inconclusive generation followed by an
inconclusive corrective retry terminates in the inconclusive-after-retry
failure mode surfacing both texts, not in iteration-budget exhaustion. -/
theorem spec_c4 : ∀ (env : LoopEnv) (query t1 t2 : String),
    parse_model_output (env.llm 0) = .Inconclusive t1 →
    parse_model_output (env.llm 1) = .Inconclusive t2 →
    (run_agent env 1 query).result = .inconclusiveAfterRetry t1 t2 ∧
    (run_agent env 1 query).result ≠ .maxIterationsExceeded := by
  intro env query t1 t2 h0 h1
  have hrun : (run_agent env 1 query).result = .inconclusiveAfterRetry t1 t2 := by
    show (runLoop env 1 (AgentState.new query) false 0 0).result = _
    simp only [runLoop, process_model_output, h0]
    simp only [Nat.zero_add, h1]
  exact ⟨hrun, by rw [hrun]; intro h; cases h⟩

/-- C4 witness: the concrete script with both generations inconclusive. -/
theorem spec_c4_witness :
    (run_agent envC4 1 "q").result =
      .inconclusiveAfterRetry "I will run ls now" "Let me check the files" ∧
    (run_agent envC4 1 "q").result ≠ .maxIterationsExceeded :=
  spec_c4 envC4 "q" "I will run ls now" "Let me check the files" rfl rfl

/-- C1 counterexample: under the concrete script of `envC1`
(first generation inconclusive, corrective retry a tool call whose outcome
is the bare metadata line `total 123`), the loop appends the tool outcome
to the history and runs to budget exhaustion with zero guardrail-chain
invocations, even though the chain rejects exactly this outcome — refuting
the claim that the outcome passes through the guardrail chain exactly once
and is validated before being appended. -/
theorem spec_c1_cex :
    (run_agent envC1 1 "list files").gcalls = 0 ∧
    (run_agent envC1 1 "list files").final.history.contains
      ⟨.Tool, "Tool output:\ntotal 123"⟩ = true ∧
    (run_agent envC1 1 "list files").result = .maxIterationsExceeded ∧
    plausibility_validate
        ⟨(run_agent envC1 1 "list files").final, ⟨"shell", .obj [("command", .str "ls")]⟩,
          ToolResult.mkSuccess "total 123"⟩ =
      .Reject "Tool output contains only metadata (e.g. 'total' line), not actual data" :=
  ⟨rfl, rfl, rfl, rfl⟩

/-- C1 amended: when the corrective retry issued after an Inconclusive
decision is classified as InvokeTool, the resulting tool outcome is
appended to the conversation history without passing through the guardrail
chain at all (the chain invocation count is unchanged), and the loop then
continues with the next primary iteration. -/
theorem spec_c1_amended : ∀ (env : LoopEnv) (fuel : Nat) (state : AgentState)
    (toolUsed : Bool) (k g : Nat) (t : String) (tr : ToolRequest),
    parse_model_output (env.llm k) = .Inconclusive t →
    parse_model_output (env.llm (k + 1)) = .ToolCall tr →
    runLoop env (fuel + 1) state toolUsed k g =
      runLoop env fuel
        (apply_tool_result (state.add_message .Assistant (env.llm (k + 1)))
          (env.toolExec tr))
        true (k + 2) g := by
  intro env fuel state toolUsed k g t tr h0 h1
  simp only [runLoop, process_model_output, h0, h1]

/-- C1 witness for the amended claim, at the concrete script of `envC1`. -/
theorem spec_c1_witness :
    runLoop envC1 1 (AgentState.new "q") false 0 0 =
      runLoop envC1 0
        (apply_tool_result ((AgentState.new "q").add_message .Assistant (envC1.llm 1))
          (envC1.toolExec ⟨"shell", .obj [("command", .str "ls")]⟩))
        true 2 0 :=
  spec_c1_amended envC1 0 (AgentState.new "q") false 0 0 "I will run ls now"
    ⟨"shell", .obj [("command", .str "ls")]⟩ rfl rfl

/-- C2 counterexample: after a final answer completes the state, a further
`add_message` still appends (history grows from 2 to 3 messages), and
processing a second final answer silently overwrites the stored final
answer — refuting the disallow-append and never-overwrite parts of the
claim. -/
theorem spec_c2_cex :
    (process_model_output (AgentState.new "capital?") "Paris.").1.is_complete = true ∧
    (process_model_output (AgentState.new "capital?") "Paris.").1.final_answer =
      some "Paris." ∧
    ((process_model_output (AgentState.new "capital?") "Paris.").1.add_message
        .User "thanks").history.length = 3 ∧
    (process_model_output
        (process_model_output (AgentState.new "capital?") "Paris.").1
        "London.").1.final_answer = some "London." :=
  ⟨rfl, rfl, rfl, rfl⟩

/-- C2 amended: for every state reachable through the `AgentState` API,
`final_answer` is present iff `is_complete` is true; the code does not,
however, enforce immutability after completion — `add_message` still
appends and a second final answer silently overwrites the stored one. -/
theorem spec_c2_amended : ∀ s : AgentState, ReachableState s →
    s.final_answer.isSome = s.is_complete := by
  intro s h
  induction h with
  | init q => rfl
  | added s role content _ ih => simpa [AgentState.add_message] using ih
  | processed s output _ ih =>
    show (match parse_model_output output with
      | .ToolCall tr => (s.add_message .Assistant output, AgentDecision.InvokeTool tr)
      | .SkillCall sr => (s.add_message .Assistant output, AgentDecision.InvokeSkill sr)
      | .FinalAnswer answer =>
        ({ history := (s.add_message .Assistant answer).history,
           is_complete := true,
           final_answer := some answer }, AgentDecision.Done answer)
      | .Inconclusive o => (s, AgentDecision.Inconclusive o)).1.final_answer.isSome =
      (match parse_model_output output with
      | .ToolCall tr => (s.add_message .Assistant output, AgentDecision.InvokeTool tr)
      | .SkillCall sr => (s.add_message .Assistant output, AgentDecision.InvokeSkill sr)
      | .FinalAnswer answer =>
        ({ history := (s.add_message .Assistant answer).history,
           is_complete := true,
           final_answer := some answer }, AgentDecision.Done answer)
      | .Inconclusive o => (s, AgentDecision.Inconclusive o)).1.is_complete
    cases parse_model_output output with
    | ToolCall tr => simpa [AgentState.add_message] using ih
    | SkillCall sr => simpa [AgentState.add_message] using ih
    | FinalAnswer a => rfl
    | Inconclusive o => simpa using ih
  | toolApplied s result _ ih =>
    simpa [apply_tool_result, AgentState.add_message] using ih

/-- C2 witness: the invariant instantiated at a concrete reachable state. -/
theorem spec_c2_witness :
    (AgentState.new "hi").final_answer.isSome = (AgentState.new "hi").is_complete :=
  spec_c2_amended (AgentState.new "hi") (ReachableState.init "hi")

/-- C3: a trimmed input that parses as structured key/value data carrying
the `skill` discriminator (and no `tool` discriminator, which takes
priority) whose value names a supported skill classifies as a skill call
carrying the remaining fields as the parameter bag, just as a `tool`
discriminator with a string value produces a tool call. -/
theorem spec_c3 :
    (∀ (s : String) (fields : List (String × Json)) (name : String),
      jparse (rustTrim s) = some (.obj fields) →
      lookupField fields "tool" = none →
      lookupField fields "skill" = some (.str name) →
      is_valid_skill name = true →
      parse_model_output s = .SkillCall ⟨name, .obj (removeField fields "skill")⟩) ∧
    (∀ (s : String) (fields : List (String × Json)) (name : String),
      jparse (rustTrim s) = some (.obj fields) →
      lookupField fields "tool" = some (.str name) →
      parse_model_output s = .ToolCall ⟨name, .obj (removeField fields "tool")⟩) := by
  constructor
  · intro s fields name hp htool hskill hvalid
    unfold parse_model_output
    simp [hp, jget, htool, hskill, toSkillRequest, hvalid]
  · intro s fields name hp htool
    unfold parse_model_output
    simp [hp, jget, htool, toToolRequest]

/-- C3 witness: the concrete skill invocation text classifies as a skill
call on `extract` with the remaining fields as the parameter bag. -/
theorem spec_c3_witness :
    parse_model_output skillCallText =
      .SkillCall ⟨"extract", .obj [("text", .str "hi"), ("target", .str "email")]⟩ :=
  spec_c3.1 skillCallText
    [("skill", .str "extract"), ("text", .str "hi"), ("target", .str "email")]
    "extract" rfl rfl rfl rfl

/-- The item loop accepts exactly when every item is a case-insensitive
substring of the source text. -/
theorem checkItems_ok_iff : ∀ (src : String) (items : List String),
    checkItems src items = .ok () ↔
      ∀ s ∈ items, strContains src (rustToLower s) = true := by
  intro src items
  induction items with
  | nil => simp [checkItems]
  | cons i rest ih =>
    by_cases h : strContains src (rustToLower i) = true
    · simp only [checkItems, h, if_true, ih]
      constructor
      · intro hall s hs
        rcases List.mem_cons.mp hs with rfl | hs'
        · exact h
        · exact hall s hs'
      · intro hall s hs
        exact hall s (List.mem_cons_of_mem i hs)
    · simp only [checkItems, if_neg h]
      constructor
      · intro hc
        cases hc
      · intro hall
        exact absurd (hall i (List.mem_cons_self i rest)) h

/-- The item loop fails with a hallucination error exactly when some item
is not a case-insensitive substring of the source text. -/
theorem checkItems_err_iff : ∀ (src : String) (items : List String),
    (∃ w, checkItems src items = .error (.HallucinationDetected w)) ↔
      ∃ s ∈ items, strContains src (rustToLower s) = false := by
  intro src items
  induction items with
  | nil =>
    simp only [checkItems]
    constructor
    · rintro ⟨w, hw⟩; cases hw
    · rintro ⟨s, hs, _⟩; cases hs
  | cons i rest ih =>
    by_cases h : strContains src (rustToLower i) = true
    · simp only [checkItems, h, if_true, ih]
      constructor
      · rintro ⟨s, hs, hf⟩
        exact ⟨s, List.mem_cons_of_mem i hs, hf⟩
      · rintro ⟨s, hs, hf⟩
        rcases List.mem_cons.mp hs with rfl | hs'
        · rw [h] at hf; cases hf
        · exact ⟨s, hs', hf⟩
    · simp only [checkItems, if_neg h]
      constructor
      · intro _
        exact ⟨i, List.mem_cons_self i rest, Bool.eq_false_iff.mpr h⟩
      · intro _
        exact ⟨i, rfl⟩

/-- A reported hallucination value was an item that is absent from the
source text. -/
theorem checkItems_err_mem : ∀ (src : String) (items : List String) (w : String),
    checkItems src items = .error (.HallucinationDetected w) →
      w ∈ items ∧ strContains src (rustToLower w) = false := by
  intro src items
  induction items with
  | nil => intro w hw; cases hw
  | cons i rest ih =>
    intro w hw
    by_cases h : strContains src (rustToLower i) = true
    · simp only [checkItems, h, if_true] at hw
      obtain ⟨hm, hf⟩ := ih w hw
      exact ⟨List.mem_cons_of_mem i hm, hf⟩
    · simp only [checkItems, if_neg h] at hw
      obtain rfl : i = w := SkillError.HallucinationDetected.inj (Except.error.inj hw)
      exact ⟨List.mem_cons_self i rest, Bool.eq_false_iff.mpr h⟩

/-- For the scalar/array targets with the target field present, validation
is exactly the item loop over the strings extracted from the field value. -/
theorem validate_scalar_eq : ∀ (input : ExtractionInput) (output : ExtractionOutput)
    (target : ExtractionTarget) (v : Json),
    (target = .Email ∨ target = .Url ∨ target = .Date) →
    jget output.result target.as_str = some v →
    validate_extraction_output input output target =
      checkItems (rustToLower input.text) (itemsOf v) := by
  intro input output target v htgt hget
  have hfield : output.has_target_field target = true := by
    simp [ExtractionOutput.has_target_field, hget]
  unfold validate_extraction_output
  rcases htgt with h | h | h <;> subst h <;> simp [hfield, hget]

/-- C7: for the email, url and date targets with the target field present,
validation succeeds iff every extracted string of the field is,
case-insensitively, a substring of the source text; it returns a
hallucination error iff some extracted string is not, and the reported
value is such a string. -/
theorem spec_c7 : ∀ (input : ExtractionInput) (output : ExtractionOutput)
    (target : ExtractionTarget) (v : Json),
    (target = .Email ∨ target = .Url ∨ target = .Date) →
    jget output.result target.as_str = some v →
    ((validate_extraction_output input output target = .ok ()) ↔
      ∀ s ∈ itemsOf v, strContains (rustToLower input.text) (rustToLower s) = true) ∧
    ((∃ w, validate_extraction_output input output target =
        .error (.HallucinationDetected w)) ↔
      ∃ s ∈ itemsOf v, strContains (rustToLower input.text) (rustToLower s) = false) ∧
    (∀ w, validate_extraction_output input output target =
        .error (.HallucinationDetected w) →
      w ∈ itemsOf v ∧ strContains (rustToLower input.text) (rustToLower w) = false) := by
  intro input output target v htgt hget
  rw [validate_scalar_eq input output target v htgt hget]
  exact ⟨checkItems_ok_iff _ _, checkItems_err_iff _ _, checkItems_err_mem _ _⟩

/-- C7 witness: an extracted email present in the source is accepted and an
absent one is rejected as a hallucination. -/
theorem spec_c7_witness :
    validate_extraction_output ⟨"Email: hello@agent.rs", "email"⟩
        ⟨.obj [("email", .arr [.str "hello@agent.rs"])]⟩ .Email = .ok () ∧
    (∃ w, validate_extraction_output ⟨"Contact us anytime", "email"⟩
        ⟨.obj [("email", .arr [.str "fake@example.com"])]⟩ .Email =
      .error (.HallucinationDetected w)) :=
  ⟨(spec_c7 ⟨"Email: hello@agent.rs", "email"⟩
      ⟨.obj [("email", .arr [.str "hello@agent.rs"])]⟩ .Email
      (.arr [.str "hello@agent.rs"]) (Or.inl rfl) rfl).1.mpr (by decide),
   (spec_c7 ⟨"Contact us anytime", "email"⟩
      ⟨.obj [("email", .arr [.str "fake@example.com"])]⟩ .Email
      (.arr [.str "fake@example.com"]) (Or.inl rfl) rfl).2.1.mpr
      ⟨"fake@example.com", List.mem_singleton.mpr rfl, by decide⟩⟩

/-- C10: for the email, url and date targets the anti-hallucination check
inspects only JSON string values — deleting a non-string array element
does not change the extracted items, and a target value that is neither a
string nor an array contributes no items, so validation succeeds on it
(with the target field present). -/
theorem spec_c10 : ∀ (input : ExtractionInput) (output : ExtractionOutput)
    (target : ExtractionTarget) (v : Json),
    (target = .Email ∨ target = .Url ∨ target = .Date) →
    jget output.result target.as_str = some v →
    (∀ (l₁ l₂ : List Json) (j : Json), v = .arr (l₁ ++ j :: l₂) → jsonAsStr j = none →
      itemsOf v = itemsOf (.arr (l₁ ++ l₂))) ∧
    (jsonAsStr v = none → (∀ l, v ≠ .arr l) →
      itemsOf v = [] ∧ validate_extraction_output input output target = .ok ()) := by
  intro input output target v htgt hget
  constructor
  · intro l₁ l₂ j hv hj
    subst hv
    simp [itemsOf, List.filterMap_append, List.filterMap_cons, hj]
  · intro hstr harr
    have hitems : itemsOf v = [] := by
      cases v with
      | str s => cases hstr
      | arr l => exact absurd rfl (harr l)
      | null => rfl
      | bool b => rfl
      | num raw => rfl
      | obj fields => rfl
    refine ⟨hitems, ?_⟩
    rw [validate_scalar_eq input output target v htgt hget, hitems]
    rfl

/-- C10 witness: a numeric target-field value contributes no items and
validates successfully. -/
theorem spec_c10_witness :
    itemsOf (.num "42") = [] ∧
    validate_extraction_output ⟨"no emails here", "email"⟩
        ⟨.obj [("email", .num "42")]⟩ .Email = .ok () :=
  (spec_c10 ⟨"no emails here", "email"⟩ ⟨.obj [("email", .num "42")]⟩ .Email
      (.num "42") (Or.inl rfl) rfl).2 rfl (fun _ h => Json.noConfusion h)

/-- A value whose `as_str` projection is a string is that string. -/
theorem jsonAsStr_eq : ∀ (v : Json) (s : String), jsonAsStr v = some s → v = .str s := by
  intro v s h
  cases v <;> simp [jsonAsStr] at h
  rw [h]

/-- The entity value loop accepts exactly when every string element has
some whitespace token present (case-insensitively) in the source text. -/
theorem checkEntityVals_ok_iff : ∀ (src : String) (vals : List Json),
    checkEntityVals src vals = .ok () ↔
      ∀ v ∈ vals, ∀ s, jsonAsStr v = some s → anyTokenFound src s = true := by
  intro src vals
  induction vals with
  | nil => simp [checkEntityVals]
  | cons v rest ih =>
    cases hv : jsonAsStr v with
    | none =>
      simp only [checkEntityVals, hv, ih]
      constructor
      · intro hall u hu s hs
        rcases List.mem_cons.mp hu with rfl | hu'
        · rw [hv] at hs; cases hs
        · exact hall u hu' s hs
      · intro hall u hu s hs
        exact hall u (List.mem_cons_of_mem v hu) s hs
    | some s0 =>
      by_cases htok : anyTokenFound src s0 = true
      · simp only [checkEntityVals, hv, htok, if_true, ih]
        constructor
        · intro hall u hu s hs
          rcases List.mem_cons.mp hu with rfl | hu'
          · rw [hv] at hs
            obtain rfl := Option.some.inj hs
            exact htok
          · exact hall u hu' s hs
        · intro hall u hu s hs
          exact hall u (List.mem_cons_of_mem v hu) s hs
      · simp only [checkEntityVals, hv, if_neg htok]
        constructor
        · intro hc; cases hc
        · intro hall
          exact absurd (hall v (List.mem_cons_self v rest) s0 hv) htok

/-- The entity value loop fails with a hallucination error exactly when
some string element has no whitespace token present in the source text. -/
theorem checkEntityVals_err_iff : ∀ (src : String) (vals : List Json),
    (∃ w, checkEntityVals src vals = .error (.HallucinationDetected w)) ↔
      ∃ v ∈ vals, ∃ s, jsonAsStr v = some s ∧ anyTokenFound src s = false := by
  intro src vals
  induction vals with
  | nil =>
    simp only [checkEntityVals]
    constructor
    · rintro ⟨w, hw⟩; cases hw
    · rintro ⟨v, hv, _⟩; cases hv
  | cons v rest ih =>
    cases hv : jsonAsStr v with
    | none =>
      simp only [checkEntityVals, hv, ih]
      constructor
      · rintro ⟨u, hu, s, hs, hf⟩
        exact ⟨u, List.mem_cons_of_mem v hu, s, hs, hf⟩
      · rintro ⟨u, hu, s, hs, hf⟩
        rcases List.mem_cons.mp hu with rfl | hu'
        · rw [hv] at hs; cases hs
        · exact ⟨u, hu', s, hs, hf⟩
    | some s0 =>
      by_cases htok : anyTokenFound src s0 = true
      · simp only [checkEntityVals, hv, htok, if_true, ih]
        constructor
        · rintro ⟨u, hu, s, hs, hf⟩
          exact ⟨u, List.mem_cons_of_mem v hu, s, hs, hf⟩
        · rintro ⟨u, hu, s, hs, hf⟩
          rcases List.mem_cons.mp hu with rfl | hu'
          · rw [hv] at hs
            obtain rfl := Option.some.inj hs
            rw [htok] at hf; cases hf
          · exact ⟨u, hu', s, hs, hf⟩
      · simp only [checkEntityVals, hv, if_neg htok]
        constructor
        · intro _
          exact ⟨v, List.mem_cons_self v rest, s0, hv, Bool.eq_false_iff.mpr htok⟩
        · intro _
          exact ⟨s0, rfl⟩

/-- A reported entity hallucination value was a string element none of
whose tokens occurs in the source text. -/
theorem checkEntityVals_err_mem : ∀ (src : String) (vals : List Json) (w : String),
    checkEntityVals src vals = .error (.HallucinationDetected w) →
      Json.str w ∈ vals ∧ anyTokenFound src w = false := by
  intro src vals
  induction vals with
  | nil => intro w hw; cases hw
  | cons v rest ih =>
    intro w hw
    cases hv : jsonAsStr v with
    | none =>
      simp only [checkEntityVals, hv] at hw
      obtain ⟨hm, hf⟩ := ih w hw
      exact ⟨List.mem_cons_of_mem v hm, hf⟩
    | some s0 =>
      by_cases htok : anyTokenFound src s0 = true
      · simp only [checkEntityVals, hv, htok, if_true] at hw
        obtain ⟨hm, hf⟩ := ih w hw
        exact ⟨List.mem_cons_of_mem v hm, hf⟩
      · simp only [checkEntityVals, hv, if_neg htok] at hw
        obtain rfl : s0 = w := SkillError.HallucinationDetected.inj (Except.error.inj hw)
        rw [jsonAsStr_eq v s0 hv]
        exact ⟨List.mem_cons_self _ rest, Bool.eq_false_iff.mpr htok⟩

/-- The entity value loop only ever fails with a hallucination error. -/
theorem checkEntityVals_err_shape : ∀ (src : String) (vals : List Json) (e : SkillError),
    checkEntityVals src vals = .error e → ∃ w, e = .HallucinationDetected w := by
  intro src vals
  induction vals with
  | nil => intro e he; cases he
  | cons v rest ih =>
    intro e he
    cases hv : jsonAsStr v with
    | none =>
      simp only [checkEntityVals, hv] at he
      exact ih e he
    | some s0 =>
      by_cases htok : anyTokenFound src s0 = true
      · simp only [checkEntityVals, hv, htok, if_true] at he
        exact ih e he
      · simp only [checkEntityVals, hv, if_neg htok] at he
        exact ⟨s0, (Except.error.inj he).symm⟩

/-- A field that is missing or not an array is skipped by the entity field
loop. -/
theorem checkEntityFields_skip : ∀ (src : String) (ent : Json) (f : String)
    (rest : List String), (∀ elems, jget ent f ≠ some (.arr elems)) →
    checkEntityFields src ent (f :: rest) = checkEntityFields src ent rest := by
  intro src ent f rest hna
  cases hf : jget ent f with
  | none => simp [checkEntityFields, hf]
  | some v =>
    cases v with
    | arr elems => exact absurd hf (hna elems)
    | null => simp [checkEntityFields, hf]
    | bool b => simp [checkEntityFields, hf]
    | num raw => simp [checkEntityFields, hf]
    | str s' => simp [checkEntityFields, hf]
    | obj fields' => simp [checkEntityFields, hf]

/-- An array field steps the entity field loop through the value loop. -/
theorem checkEntityFields_arr : ∀ (src : String) (ent : Json) (f : String)
    (rest : List String) (elems : List Json), jget ent f = some (.arr elems) →
    checkEntityFields src ent (f :: rest) =
      match checkEntityVals src elems with
      | .ok () => checkEntityFields src ent rest
      | .error e => .error e := by
  intro src ent f rest elems hf
  simp [checkEntityFields, hf]

/-- The entity field loop accepts exactly when the value loop accepts on
every field that is present as an array. -/
theorem checkEntityFields_ok_iff : ∀ (src : String) (ent : Json) (fs : List String),
    checkEntityFields src ent fs = .ok () ↔
      ∀ f ∈ fs, ∀ elems, jget ent f = some (.arr elems) →
        checkEntityVals src elems = .ok () := by
  intro src ent fs
  induction fs with
  | nil => simp [checkEntityFields]
  | cons f rest ih =>
    by_cases harr : ∃ elems, jget ent f = some (.arr elems)
    · obtain ⟨elems0, hf⟩ := harr
      rw [checkEntityFields_arr src ent f rest elems0 hf]
      cases hcv : checkEntityVals src elems0 with
      | ok u =>
        cases u
        rw [ih]
        constructor
        · intro hall f' hf' elems helems
          rcases List.mem_cons.mp hf' with rfl | hf''
          · rw [hf] at helems
            obtain rfl : elems0 = elems := Json.arr.inj (Option.some.inj helems)
            exact hcv
          · exact hall f' hf'' elems helems
        · intro hall f' hf' elems helems
          exact hall f' (List.mem_cons_of_mem f hf') elems helems
      | error e =>
        constructor
        · intro hc; cases hc
        · intro hall
          have := hall f (List.mem_cons_self f rest) elems0 hf
          rw [hcv] at this
          cases this
    · rw [checkEntityFields_skip src ent f rest (fun elems h => harr ⟨elems, h⟩), ih]
      constructor
      · intro hall f' hf' elems helems
        rcases List.mem_cons.mp hf' with rfl | hf''
        · exact absurd ⟨elems, helems⟩ harr
        · exact hall f' hf'' elems helems
      · intro hall f' hf' elems helems
        exact hall f' (List.mem_cons_of_mem f hf') elems helems

/-- The entity field loop fails with a hallucination error exactly when
some array field contains a string element with no token in the source. -/
theorem checkEntityFields_err_iff : ∀ (src : String) (ent : Json) (fs : List String),
    (∃ w, checkEntityFields src ent fs = .error (.HallucinationDetected w)) ↔
      ∃ f ∈ fs, ∃ elems, jget ent f = some (.arr elems) ∧
        ∃ v ∈ elems, ∃ s, jsonAsStr v = some s ∧ anyTokenFound src s = false := by
  intro src ent fs
  induction fs with
  | nil =>
    simp only [checkEntityFields]
    constructor
    · rintro ⟨w, hw⟩; cases hw
    · rintro ⟨f, hf, _⟩; cases hf
  | cons f rest ih =>
    by_cases harr : ∃ elems, jget ent f = some (.arr elems)
    · obtain ⟨elems0, hf⟩ := harr
      rw [checkEntityFields_arr src ent f rest elems0 hf]
      cases hcv : checkEntityVals src elems0 with
      | ok u =>
        cases u
        rw [ih]
        constructor
        · rintro ⟨f', hf', elems, helems, hbad⟩
          exact ⟨f', List.mem_cons_of_mem f hf', elems, helems, hbad⟩
        · rintro ⟨f', hf', elems, helems, hbad⟩
          rcases List.mem_cons.mp hf' with rfl | hf''
          · rw [hf] at helems
            obtain rfl : elems0 = elems := Json.arr.inj (Option.some.inj helems)
            exfalso
            obtain ⟨v, hv, s, hs, hfalse⟩ := hbad
            have := (checkEntityVals_ok_iff src elems0).mp hcv v hv s hs
            rw [this] at hfalse
            cases hfalse
          · exact ⟨f', hf'', elems, helems, hbad⟩
      | error e =>
        constructor
        · rintro ⟨w, hw⟩
          obtain rfl : e = .HallucinationDetected w := Except.error.inj hw
          obtain ⟨hm, hfalse⟩ := checkEntityVals_err_mem src elems0 w hcv
          exact ⟨f, List.mem_cons_self f rest, elems0, hf,
            Json.str w, hm, w, rfl, hfalse⟩
        · intro _
          obtain ⟨w, rfl⟩ := checkEntityVals_err_shape src elems0 e hcv
          exact ⟨w, rfl⟩
    · rw [checkEntityFields_skip src ent f rest (fun elems h => harr ⟨elems, h⟩), ih]
      constructor
      · rintro ⟨f', hf', elems, helems, hbad⟩
        exact ⟨f', List.mem_cons_of_mem f hf', elems, helems, hbad⟩
      · rintro ⟨f', hf', elems, helems, hbad⟩
        rcases List.mem_cons.mp hf' with rfl | hf''
        · exact absurd ⟨elems, helems⟩ harr
        · exact ⟨f', hf'', elems, helems, hbad⟩

/-- C8: for the entity target (with the `entity` field present), validation
succeeds iff every string value listed under the `people`, `organizations`
and `locations` array fields has at least one whitespace-separated token
that is, case-insensitively, a substring of the source text; it fails with
a hallucination error iff some such value has none of its tokens in the
source, and the reported value is such a value. -/
theorem spec_c8 : ∀ (input : ExtractionInput) (output : ExtractionOutput) (ent : Json),
    jget output.result "entity" = some ent →
    ((validate_extraction_output input output .Entity = .ok ()) ↔
      ∀ f ∈ ["people", "organizations", "locations"], ∀ elems,
        jget ent f = some (.arr elems) →
        ∀ v ∈ elems, ∀ s, jsonAsStr v = some s →
          anyTokenFound (rustToLower input.text) s = true) ∧
    ((∃ w, validate_extraction_output input output .Entity =
        .error (.HallucinationDetected w)) ↔
      ∃ f ∈ ["people", "organizations", "locations"], ∃ elems,
        jget ent f = some (.arr elems) ∧
        ∃ v ∈ elems, ∃ s, jsonAsStr v = some s ∧
          anyTokenFound (rustToLower input.text) s = false) ∧
    (∀ w, validate_extraction_output input output .Entity =
        .error (.HallucinationDetected w) →
      anyTokenFound (rustToLower input.text) w = false) := by
  intro input output ent hget
  have hfield : output.has_target_field .Entity = true := by
    simp [ExtractionOutput.has_target_field, ExtractionTarget.as_str, hget]
  have hval : validate_extraction_output input output .Entity =
      checkEntityFields (rustToLower input.text) ent
        ["people", "organizations", "locations"] := by
    unfold validate_extraction_output
    simp [hfield, ExtractionTarget.as_str, hget]
  rw [hval]
  refine ⟨?_, ?_, ?_⟩
  · rw [checkEntityFields_ok_iff]
    constructor
    · intro hall f hf elems helems v hv s hs
      exact (checkEntityVals_ok_iff _ _).mp (hall f hf elems helems) v hv s hs
    · intro hall f hf elems helems
      exact (checkEntityVals_ok_iff _ _).mpr fun v hv s hs =>
        hall f hf elems helems v hv s hs
  · rw [checkEntityFields_err_iff]
  · intro w hw
    revert hw
    generalize ["people", "organizations", "locations"] = fs
    induction fs with
    | nil => intro hw; cases hw
    | cons f rest ih =>
      intro hw
      by_cases harr : ∃ elems, jget ent f = some (.arr elems)
      · obtain ⟨elems0, hf⟩ := harr
        rw [checkEntityFields_arr _ ent f rest elems0 hf] at hw
        cases hcv : checkEntityVals (rustToLower input.text) elems0 with
        | ok u =>
          cases u
          rw [hcv] at hw
          exact ih hw
        | error e =>
          rw [hcv] at hw
          obtain rfl : e = .HallucinationDetected w := Except.error.inj hw
          exact (checkEntityVals_err_mem _ elems0 w hcv).2
      · rw [checkEntityFields_skip _ ent f rest (fun elems h => harr ⟨elems, h⟩)] at hw
        exact ih hw

/-- C8 witness: a multi-word person name with no token in the source text
is reported as a hallucination. -/
theorem spec_c8_witness :
    ∃ w, validate_extraction_output ⟨"Contact us anytime", "entity"⟩
        ⟨.obj [("entity", .obj [("people", .arr [.str "Bob Jones"])])]⟩ .Entity =
      .error (.HallucinationDetected w) :=
  (spec_c8 ⟨"Contact us anytime", "entity"⟩
      ⟨.obj [("entity", .obj [("people", .arr [.str "Bob Jones"])])]⟩
      (.obj [("people", .arr [.str "Bob Jones"])]) rfl).2.1.mpr
    ⟨"people", by decide, [.str "Bob Jones"], rfl,
      .str "Bob Jones", List.mem_singleton.mpr rfl, "Bob Jones", rfl, by decide⟩

/-- The inconclusiveness heuristic holds exactly when the text is shorter
than 300 characters and case-insensitively contains one of the fixed
planning markers. -/
theorem is_inconclusive_iff : ∀ t : String,
    is_inconclusive t = true ↔
      t.data.length < 300 ∧
        ∃ p ∈ planning_phrases, strContains (rustToLower t) p = true := by
  intro t
  unfold is_inconclusive
  by_cases hlen : t.data.length < 300
  · simp [hlen, List.any_eq_true]
  · simp [hlen]

/-- An input that does not classify as an action falls through to the
inconclusive/final-answer decision on its trimmed text. -/
theorem parse_fallthrough : ∀ s : String,
    (parse_model_output s).is_action = false →
    parse_model_output s =
      if is_inconclusive (rustTrim s) then .Inconclusive (rustTrim s)
      else .FinalAnswer (rustTrim s) := by
  intro s hact
  unfold parse_model_output at *
  cases hp : jparse (rustTrim s) with
  | none => simp [hp]
  | some v =>
    simp only [hp] at hact ⊢
    cases ht : jget v "tool" with
    | some tv =>
      simp only [ht] at hact ⊢
      cases htr : toToolRequest v with
      | some tr => simp [htr, ParseResult.is_action] at hact
      | none => simp [htr]
    | none =>
      simp only [ht] at hact ⊢
      cases hs : jget v "skill" with
      | some sv =>
        simp only [hs] at hact ⊢
        cases hsr : toSkillRequest v with
        | some sr =>
          simp only [hsr] at hact ⊢
          by_cases hvalid : is_valid_skill sr.skill = true
          · simp [hvalid, ParseResult.is_action] at hact
          · simp [hvalid] at hact ⊢
        | none => simp [hsr]
      | none => simp [hs]

/-- C9: every input that does not classify as a tool/skill invocation
yields `Inconclusive` on its trimmed text when that text is shorter than
300 characters and case-insensitively contains a planning marker, and
yields the final answer on the trimmed text otherwise; in particular
classifying `I will run ls now` is inconclusive. -/
theorem spec_c9 :
    (∀ s : String, (parse_model_output s).is_action = false →
      (((rustTrim s).data.length < 300 ∧
          ∃ p ∈ planning_phrases, strContains (rustToLower (rustTrim s)) p = true) →
        parse_model_output s = .Inconclusive (rustTrim s)) ∧
      (¬((rustTrim s).data.length < 300 ∧
          ∃ p ∈ planning_phrases, strContains (rustToLower (rustTrim s)) p = true) →
        parse_model_output s = .FinalAnswer (rustTrim s))) ∧
    parse_model_output "I will run ls now" = .Inconclusive "I will run ls now" := by
  constructor
  · intro s hact
    have hfall := parse_fallthrough s hact
    constructor
    · intro hcond
      rw [hfall, if_pos ((is_inconclusive_iff (rustTrim s)).mpr hcond)]
    · intro hcond
      rw [hfall, if_neg]
      intro hinc
      exact hcond ((is_inconclusive_iff (rustTrim s)).mp hinc)
  · rfl

/-- C9 witness: a plain declarative sentence with no planning marker
classifies as the final answer. -/
theorem spec_c9_witness :
    parse_model_output "The answer is 4." = .FinalAnswer "The answer is 4." :=
  (spec_c9.1 "The answer is 4." rfl).2 (by decide)

/-- A list is a Boolean prefix of itself followed by anything. -/
theorem prefixOf_append_self : ∀ (l r : List Char), l.isPrefixOf (l ++ r) = true := by
  intro l r
  induction l with
  | nil => simp [List.isPrefixOf]
  | cons c t ih => simp [List.isPrefixOf, ih]

/-- The head surviving a `dropWhile` falsifies the predicate. -/
theorem dropWhile_head_false : ∀ (p : Char → Bool) (l : List Char) (c : Char) (t : List Char),
    l.dropWhile p = c :: t → p c = false := by
  intro p l
  induction l with
  | nil => intro c t h; cases h
  | cons a as ih =>
    intro c t h
    by_cases hp : p a = true
    · simp only [List.dropWhile, hp] at h
      exact ih c t h
    · simp only [List.dropWhile, Bool.eq_false_iff.mpr hp] at h
      obtain ⟨rfl, -⟩ := List.cons.inj h
      exact Bool.eq_false_iff.mpr hp

/-- A nonempty trimmed character list does not start with whitespace. -/
theorem trimChars_head : ∀ (cs : List Char) (c : Char) (t : List Char),
    trimChars cs = c :: t → c.isWhitespace = false := by
  intro cs c t h
  exact dropWhile_head_false Char.isWhitespace _ c t h

/-- Whitespace splitting never produces an empty token. -/
theorem wsSplitAux_ne_nil : ∀ (cs cur tok : List Char),
    tok ∈ wsSplitAux cs cur → tok ≠ [] := by
  intro cs
  induction cs with
  | nil =>
    intro cur tok h
    by_cases hc : cur.isEmpty = true
    · simp [wsSplitAux, hc] at h
    · simp only [wsSplitAux, if_neg hc, List.mem_singleton] at h
      subst h
      intro hnil
      exact hc (by simpa [List.isEmpty_iff] using List.reverse_eq_nil_iff.mp hnil)
  | cons a as ih =>
    intro cur tok h
    by_cases hw : a.isWhitespace = true
    · by_cases hc : cur.isEmpty = true
      · simp only [wsSplitAux, if_pos hw, if_pos hc] at h
        exact ih [] tok h
      · simp only [wsSplitAux, if_pos hw, if_neg hc, List.mem_cons] at h
        cases h with
        | inl h' =>
          subst h'
          intro hnil
          exact hc (by simpa [List.isEmpty_iff] using List.reverse_eq_nil_iff.mp hnil)
        | inr h' => exact ih [] tok h'
    · simp only [wsSplitAux, if_neg hw] at h
      exact ih (a :: cur) tok h

/-- Every character of a whitespace-split token comes from the accumulator
or the input. -/
theorem wsSplitAux_mem : ∀ (cs cur tok : List Char), tok ∈ wsSplitAux cs cur →
    ∀ x ∈ tok, x ∈ cur ∨ x ∈ cs := by
  intro cs
  induction cs with
  | nil =>
    intro cur tok h x hx
    by_cases hc : cur.isEmpty = true
    · simp [wsSplitAux, hc] at h
    · simp only [wsSplitAux, if_neg hc, List.mem_singleton] at h
      subst h
      exact Or.inl (List.mem_reverse.mp hx)
  | cons a as ih =>
    intro cur tok h x hx
    by_cases hw : a.isWhitespace = true
    · by_cases hc : cur.isEmpty = true
      · simp only [wsSplitAux, if_pos hw, if_pos hc] at h
        cases ih [] tok h x hx with
        | inl hx' => cases hx'
        | inr hx' => exact Or.inr (List.mem_cons_of_mem a hx')
      · simp only [wsSplitAux, if_pos hw, if_neg hc, List.mem_cons] at h
        cases h with
        | inl h' =>
          subst h'
          exact Or.inl (List.mem_reverse.mp hx)
        | inr h' =>
          cases ih [] tok h' x hx with
          | inl hx' => cases hx'
          | inr hx' => exact Or.inr (List.mem_cons_of_mem a hx')
    · simp only [wsSplitAux, if_neg hw] at h
      cases ih (a :: cur) tok h x hx with
      | inl hx' =>
        cases List.mem_cons.mp hx' with
        | inl hx'' => exact Or.inr (by rw [hx'']; exact List.mem_cons_self a as)
        | inr hx'' => exact Or.inl hx''
      | inr hx' => exact Or.inr (List.mem_cons_of_mem a hx')

/-- With a nonempty accumulator, whitespace splitting first emits the
accumulator followed by the leading non-whitespace run. -/
theorem wsSplitAux_first : ∀ (t cur : List Char), cur ≠ [] →
    wsSplitAux t cur =
      (cur.reverse ++ t.takeWhile (fun c => !c.isWhitespace)) ::
        wsSplitAux (t.dropWhile (fun c => !c.isWhitespace)) [] := by
  intro t
  induction t with
  | nil =>
    intro cur hc
    have hce : cur.isEmpty = false := by simpa [List.isEmpty_iff] using hc
    simp [wsSplitAux, hce]
  | cons a as ih =>
    intro cur hc
    have hce : cur.isEmpty = false := by simpa [List.isEmpty_iff] using hc
    by_cases hw : a.isWhitespace = true
    · have h1 : wsSplitAux (a :: as) cur = cur.reverse :: wsSplitAux as [] := by
        simp [wsSplitAux, hw, hce]
      have h2 : (a :: as).takeWhile (fun c => !c.isWhitespace) = [] := by
        simp [List.takeWhile, hw]
      have h3 : (a :: as).dropWhile (fun c => !c.isWhitespace) = a :: as := by
        simp [List.dropWhile, hw]
      have h4 : wsSplitAux (a :: as) [] = wsSplitAux as [] := by
        simp [wsSplitAux, hw]
      rw [h1, h2, h3, h4, List.append_nil]
    · have h1 : wsSplitAux (a :: as) cur = wsSplitAux as (a :: cur) := by
        simp [wsSplitAux, Bool.eq_false_iff.mpr hw]
      have h2 : (a :: as).takeWhile (fun c => !c.isWhitespace) =
          a :: as.takeWhile (fun c => !c.isWhitespace) := by
        simp [List.takeWhile, Bool.eq_false_iff.mpr hw]
      have h3 : (a :: as).dropWhile (fun c => !c.isWhitespace) =
          as.dropWhile (fun c => !c.isWhitespace) := by
        simp [List.dropWhile, Bool.eq_false_iff.mpr hw]
      rw [h1, ih (a :: cur) (by simp), h2, h3]
      simp

/-- Mapping the string constructor onto a two-element pair determines the
underlying character lists. -/
theorem map_mk_eq_pair : ∀ (u : List (List Char)) (w n : String),
    u.map (fun cs => (⟨cs⟩ : String)) = [w, n] → u = [w.data, n.data] := by
  intro u w n h
  cases u with
  | nil => cases h
  | cons a u' =>
    cases u' with
    | nil => cases h
    | cons b u'' =>
      cases u'' with
      | nil =>
        injection h with h1 h'
        injection h' with h2 h''
        rw [← congrArg String.data h1, ← congrArg String.data h2]
      | cons c u''' => cases h

/-- Boolean De Morgan for `all` over a negated predicate. -/
theorem all_not_eq_not_any : ∀ (l : List Char) (p : Char → Bool),
    (l.all fun c => !p c) = !(l.any p) := by
  intro l p
  induction l with
  | nil => rfl
  | cons a as ih => simp [List.all_cons, List.any_cons, ih]

/-- The substance check holds exactly when the trimmed output is neither
shorter than 3 characters nor free of alphanumeric characters. -/
theorem has_minimal_substance_iff : ∀ output : String,
    has_minimal_substance output = true ↔
      ¬((rustTrim output).data.length < 3 ∨
        ((rustTrim output).data.all fun c => !c.isAlphanum) = true) := by
  intro output
  unfold has_minimal_substance
  rw [all_not_eq_not_any]
  by_cases h1 : (rustTrim output).data.length < 3
  · simp [h1]
  · by_cases h2 : (rustTrim output).data.any Char.isAlphanum = true
    · simp [h1, h2]
    · simp [h1, h2, Bool.eq_false_iff.mpr h2]

/-- The metadata check holds exactly when the trimmed output is empty or is
the spec's one-line `total <number>` shape. -/
theorem is_metadata_only_iff : ∀ output : String,
    is_metadata_only output = true ↔
      ((rustTrim output).data.isEmpty = true ∨
       totalMetadataLine (rustTrim output) = true) := by
  intro output
  unfold is_metadata_only totalMetadataLine
  by_cases hemp : (rustTrim output).data.isEmpty = true
  · simp [hemp]
  · simp only [if_neg hemp]
    by_cases hlines : ((rustLines (rustTrim output)).length == 1) = true
    · simp only [if_pos hlines, hlines, Bool.true_and, hemp, false_or]
      cases hparts : split_whitespace (rustTrim output) with
      | nil => split <;> simp
      | cons w parts' =>
        cases parts' with
        | nil => split <;> simp
        | cons n parts'' =>
          cases parts'' with
          | cons m parts''' => split <;> simp
          | nil =>
            by_cases heq : eqIgnoreAsciiCase w "total" = true
            · by_cases hdig : (n.data.all Char.isDigit) = true
              · -- Establish the redundant guards from the structure of the
                -- trimmed text and its tokens.
                obtain ⟨c, rest, hdata⟩ : ∃ c rest, (rustTrim output).data = c :: rest := by
                  cases hd : (rustTrim output).data with
                  | nil => rw [hd] at hemp; exact absurd rfl hemp
                  | cons c rest => exact ⟨c, rest, rfl⟩
                have hcw : c.isWhitespace = false := by
                  have : trimChars output.data = c :: rest := by
                    have : (rustTrim output).data = trimChars output.data := rfl
                    rw [← this, hdata]
                  exact trimChars_head output.data c rest this
                have hsplitu : wsSplitAux (rustTrim output).data [] = [w.data, n.data] := by
                  apply map_mk_eq_pair
                  rw [← hparts]
                  rfl
                have hfirst : wsSplitAux (rustTrim output).data [] =
                    (c :: rest.takeWhile (fun d => !d.isWhitespace)) ::
                      wsSplitAux (rest.dropWhile (fun d => !d.isWhitespace)) [] := by
                  rw [hdata]
                  show wsSplitAux (c :: rest) [] = _
                  have hstep : wsSplitAux (c :: rest) [] = wsSplitAux rest [c] := by
                    simp [wsSplitAux, hcw]
                  rw [hstep, wsSplitAux_first rest [c] (by simp)]
                  rfl
                have hw_data : w.data = c :: rest.takeWhile (fun d => !d.isWhitespace) := by
                  have := hsplitu.symm.trans hfirst
                  exact (List.cons.inj this).1
                have ht_eq : (rustTrim output).data =
                    w.data ++ rest.dropWhile (fun d => !d.isWhitespace) := by
                  rw [hdata, hw_data, List.cons_append]
                  rw [List.takeWhile_append_dropWhile]
                have hlow : w.data.map Char.toLower = "total".data := by
                  have : (w.data.map Char.toLower == "total".data.map Char.toLower) = true := heq
                  have h' := eq_of_beq this
                  simpa using h'
                have hstart : rustStartsWith (rustToLower (rustTrim output)) "total" = true := by
                  show ("total".data.isPrefixOf ((rustTrim output).data.map Char.toLower)) = true
                  rw [ht_eq, List.map_append, hlow]
                  exact prefixOf_append_self _ _
                have hnnil : n.data ≠ [] := by
                  apply wsSplitAux_ne_nil (rustTrim output).data []
                  rw [hsplitu]
                  exact List.mem_cons_of_mem _ (List.mem_cons_self _ _)
                have hanydig : (rustTrim output).data.any Char.isDigit = true := by
                  obtain ⟨d, nd, hnd⟩ : ∃ d nd, n.data = d :: nd := by
                    cases hn : n.data with
                    | nil => exact absurd hn hnnil
                    | cons d nd => exact ⟨d, nd, rfl⟩
                  have hdmem : d ∈ (rustTrim output).data := by
                    have hmem := wsSplitAux_mem (rustTrim output).data [] n.data
                      (by rw [hsplitu]; exact List.mem_cons_of_mem _ (List.mem_cons_self _ _))
                      d (by rw [hnd]; exact List.mem_cons_self d nd)
                    cases hmem with
                    | inl h' => cases h'
                    | inr h' => exact h'
                  have hddig : d.isDigit = true := by
                    have h' := hdig
                    rw [hnd] at h'
                    simp only [List.all_cons, Bool.and_eq_true] at h'
                    exact h'.1
                  exact List.any_eq_true.mpr ⟨d, hdmem, hddig⟩
                have hne : (!n.data.isEmpty) = true := by
                  cases hn : n.data with
                  | nil => exact absurd hn hnnil
                  | cons d nd => rfl
                simp [hstart, hanydig, heq, hdig, hne]
              · simp [heq, hdig]
            · simp [heq]
    · have hl : ((rustLines (rustTrim output)).length == 1) = false :=
        Bool.eq_false_iff.mpr hlines
      simp [if_neg hlines, hl, hemp]

/-- C6: the plausibility validator accepts every failed outcome unchanged;
for successful outcomes it rejects exactly when the output is empty or
whitespace-only, or is one line of the word `total` (case-insensitively)
followed by a single numeric token and nothing else, or the trimmed output
is shorter than 3 characters or contains no alphanumeric character. -/
theorem spec_c6 : ∀ ctx : GuardrailContext,
    (ctx.tool_result.success = false → plausibility_validate ctx = .Accept) ∧
    (ctx.tool_result.success = true →
      ((plausibility_validate ctx).is_reject = true ↔
        ((rustTrim ctx.tool_result.output).data.isEmpty = true ∨
         totalMetadataLine (rustTrim ctx.tool_result.output) = true ∨
         (rustTrim ctx.tool_result.output).data.length < 3 ∨
         ((rustTrim ctx.tool_result.output).data.all fun c => !c.isAlphanum) = true))) := by
  intro ctx
  constructor
  · intro hfail
    unfold plausibility_validate
    simp [hfail]
  · intro hsucc
    unfold plausibility_validate
    simp only [hsucc, Bool.not_true, Bool.false_eq_true, if_false]
    by_cases h1 : (rustTrim ctx.tool_result.output).data.isEmpty = true
    · rw [if_pos h1]
      exact ⟨fun _ => Or.inl h1, fun _ => rfl⟩
    · rw [if_neg h1]
      by_cases h2 : is_metadata_only ctx.tool_result.output = true
      · have htl := (is_metadata_only_iff ctx.tool_result.output).mp h2
        rcases htl with he | htl
        · exact absurd he h1
        · rw [if_pos h2]
          exact ⟨fun _ => Or.inr (Or.inl htl), fun _ => rfl⟩
      · rw [if_neg h2]
        have hTL : ¬(totalMetadataLine (rustTrim ctx.tool_result.output) = true) :=
          fun htl => h2 ((is_metadata_only_iff ctx.tool_result.output).mpr (Or.inr htl))
        by_cases h3 : has_minimal_substance ctx.tool_result.output = true
        · have hnot := (has_minimal_substance_iff ctx.tool_result.output).mp h3
          rw [if_neg (fun hcon : (!has_minimal_substance ctx.tool_result.output) = true =>
            by rw [h3] at hcon; exact Bool.noConfusion hcon)]
          constructor
          · intro hfalse
            exact Bool.noConfusion hfalse
          · intro hr
            rcases hr with he | htl | hlen | hall
            · exact absurd he h1
            · exact absurd htl hTL
            · exact absurd (Or.inl hlen) hnot
            · exact absurd (Or.inr hall) hnot
        · have hbad : (rustTrim ctx.tool_result.output).data.length < 3 ∨
              ((rustTrim ctx.tool_result.output).data.all fun c => !c.isAlphanum) = true := by
            by_contra hcon
            exact h3 ((has_minimal_substance_iff ctx.tool_result.output).mpr hcon)
          rw [if_pos (by rw [Bool.eq_false_iff.mpr h3]; rfl :
            (!has_minimal_substance ctx.tool_result.output) = true)]
          exact ⟨fun _ => Or.inr (Or.inr hbad), fun _ => rfl⟩

/-- C6 witness: a successful outcome whose output is the single metadata
line `total 123` is rejected. -/
theorem spec_c6_witness :
    (plausibility_validate
        ⟨AgentState.new "t", ⟨"shell", .obj []⟩, ToolResult.mkSuccess "total 123"⟩).is_reject =
      true :=
  ((spec_c6 ⟨AgentState.new "t", ⟨"shell", .obj []⟩, ToolResult.mkSuccess "total 123"⟩).2
    rfl).mpr (by decide)

end AgentRs
